import Mathlib

/-!
Verification of the GrayNinja Gray-code engine (`script.js`).

The numeric parts of the program are shallowly embedded below.  JavaScript
bitwise operators work on signed 32-bit integers (operands pass through
ToInt32/ToUint32, i.e. reduction modulo 2^32, and the result is the signed
reinterpretation of a 32-bit pattern); integer-valued JS numbers are
modelled by `Int`, 32-bit patterns by `Nat` values below `2^32`, and general
finite JS numbers (which are binary64 floats, exact on the integer and
small-fraction values the program manipulates) by `ℚ`.  Loops of the source
are modelled with an explicit fuel argument chosen to strictly exceed the
iteration count of every terminating run, so that `none` marks exactly the
non-terminating runs.
-/

set_option maxHeartbeats 4000000

namespace GrayNinja

/-- Bit pattern (ToUint32) of an integer-valued JS number. -/
def patOfInt (x : Int) : Nat := (x % (2 ^ 32)).toNat

/-- Signed reinterpretation (ToInt32) of a 32-bit pattern `p < 2 ^ 32`. -/
def int32OfPat (p : Nat) : Int :=
  if p < 2 ^ 31 then (p : Int) else (p : Int) - 2 ^ 32

/-- JS `a ^ b` on integer-valued numbers. -/
def jsXorI (a b : Int) : Int := int32OfPat (patOfInt a ^^^ patOfInt b)

/-- JS `a & b` on integer-valued numbers. -/
def jsAndI (a b : Int) : Int := int32OfPat (patOfInt a &&& patOfInt b)

/-- JS `x >> 1` (signed shift: ToInt32 then arithmetic shift, which is
floor division by 2). -/
def jsShr1 (x : Int) : Int := Int.fdiv (int32OfPat (patOfInt x)) 2

/-- ToUint32 of a non-negative integer-valued JS number. -/
def toUint32 (n : Nat) : Nat := n % 2 ^ 32

/-- Binary digits of `m`, most significant first; helper for JS
`Number.prototype.toString(2)`.  The fuel strictly exceeds the digit count
of every value the program produces (all below `2 ^ 33`), so it never runs
out on those values. -/
def binDigitsF : Nat → Nat → List Char
  | 0, _ => []
  | f + 1, m =>
    if m = 0 then [] else binDigitsF f (m / 2) ++ [if m % 2 = 1 then '1' else '0']

/-- JS `m.toString(2)` for a non-negative integer-valued number. -/
def natToString2 (m : Nat) : String :=
  if m = 0 then "0" else String.mk (binDigitsF 64 m)

/-- JS `x.toString(2)` for an integer-valued number; negative values are
rendered with a leading minus sign. -/
def jsToString2 (x : Int) : String :=
  if x < 0 then "-" ++ natToString2 (-x).toNat else natToString2 x.toNat

/-- JS `String.prototype.padStart`. -/
def padStart (s : String) (n : Nat) (c : Char) : String :=
  if n ≤ s.length then s else String.mk (List.replicate (n - s.length) c ++ s.data)

/-- Line 27 of `script.js`: `const pad = (x, n) => x.toString(2).padStart(n, '0')`. -/
def pad (x : Int) (n : Nat) : String := padStart (jsToString2 x) n '0'

/-- Kernighan loop of `hdist` (lines 39-42 of `script.js`): while `x` is
nonzero, `x &= x - 1` clears the lowest set bit and the counter increases.
A signed 32-bit value has at most 32 set bits, so the loop always stops
within 32 rounds and fuel 64 is never exhausted. -/
def hdistLoop : Nat → Int → Nat → Nat
  | 0, _, c => c
  | f + 1, x, c => if x = 0 then c else hdistLoop f (jsAndI x (x - 1)) (c + 1)

/-- Lines 36-44 of `script.js`: Hamming distance of `a` and `b`, counting
the set bits of `a ^ b` with Kernighan's loop. -/
def hdist (a b : Int) : Nat := hdistLoop 64 (jsXorI a b) 0

/-- Line 56 of `script.js`: `const binToGray = (b) => (b ^ (b >>> 1))`.
`b >>> 1` zero-fills (ToUint32, then halve) and `^` returns the signed
32-bit reinterpretation of the xor of the two operand patterns. -/
def binToGray (b : Nat) : Int := int32OfPat (toUint32 b ^^^ toUint32 b / 2)

/-- Loop of `grayToBin` (lines 67-69 of `script.js`):
`for (; g; g >>= 1) b ^= g`.  Starting values below `2 ^ 31` stay
non-negative and halve on every round, so every terminating run takes at
most 32 rounds and fuel 64 is ample; `none` marks the runs that never
terminate (for starting values of `2 ^ 31` and above the shifted variable
becomes negative and the arithmetic shift keeps it at `-1` forever). -/
def grayToBinLoop : Nat → Int → Int → Option Int
  | 0, _, _ => none
  | f + 1, g, b => if g = 0 then some b else grayToBinLoop f (jsShr1 g) (jsXorI b g)

/-- Lines 64-71 of `script.js`: cumulative-XOR Gray-to-binary conversion.
`some r` is a returned value `r`; `none` is the non-terminating run. -/
def grayToBin (g : Int) : Option Int := grayToBinLoop 64 g 0

/-- The `grayToBin` loop restricted to `Nat`, as it executes on values below
`2 ^ 31` where JS signed 32-bit arithmetic agrees with `Nat` arithmetic
(`jsShr1` is halving and `jsXorI` is `Nat.xor`). -/
def grayGoNF : Nat → Nat → Nat → Option Nat
  | 0, _, _ => none
  | f + 1, g, b => if g = 0 then some b else grayGoNF f (g / 2) (b ^^^ g)

/-- Line 628 of `script.js`: `input.replace(/[^01]/g, '')`. -/
def strip01 (s : String) : String :=
  String.mk (s.data.filter (fun c => c == '0' || c == '1'))

/-- `parseInt(s, 2)` on a nonempty all-binary string; exact below `2 ^ 53`. -/
def parseBin (s : String) : Nat :=
  s.data.foldl (fun a c => 2 * a + (if c = '1' then 1 else 0)) 0

/-- Lines 624-642 of `script.js` (`convert`): strip non-binary characters,
answer the sentinel for an empty or over-32-digit result, otherwise parse in
base 2 and convert, zero-padding to the stripped length.  The
`isNaN(num) || num < 0` check of line 634 cannot fire (the parse of a
nonempty binary string is a non-negative number) and the catch block is
unreachable, so the only remaining behaviours are a returned string
(`some`) and the non-terminating `grayToBin` run (`none`). -/
def convert (input : String) (toGray : Bool) : Option String :=
  let s := strip01 input
  if s = "" then some "—"
  else if 32 < s.length then some "—"
  else
    let num := parseBin s
    if toGray then some (pad (binToGray num) s.length)
    else (grayToBin (num : Int)).map (fun r => pad r s.length)

/-- JS `a % n` on integer-valued numbers for a positive divisor `n`: the
remainder carries the sign of the dividend. -/
def jsRemInt (a n : Int) : Int :=
  if a < 0 then -((-a) % n) else a % n

/-- Lines 358-363 of `script.js` (`sectorFromAngle`):
`Math.floor(angle / step) % sectors` with `sectors = 1 << bits` and
`step = 360 / sectors`.  The angle is used as given, without any prior
normalization into `[0, 360)`. -/
def sectorFromAngle (angle : ℚ) (bits : Nat) : Int :=
  jsRemInt ⌊angle / ((360 : ℚ) / ((2 ^ bits : Nat) : ℚ))⌋ ((2 ^ bits : Nat) : Int)

/-- A JS number argument: a finite value, NaN, or an infinity. -/
inductive JSNum where
  | fin (q : ℚ)
  | nan
  | posInf
  | negInf
deriving DecidableEq

/-- A JS argument as classified by the `typeof` guard of `setVal`. -/
inductive JSArg where
  | num (x : JSNum)
  | str (s : String)
  | other
deriving DecidableEq

/-- Value of the longest decimal-digit run at the front of `l`; `none` when
there is no digit (JS `parseInt` yields NaN then). -/
def digitsVal (l : List Char) : Option Nat :=
  match l.takeWhile Char.isDigit with
  | [] => none
  | d => some (d.foldl (fun a c => 10 * a + (c.toNat - 48)) 0)

/-- JS `parseInt(s, 10)`: skip leading whitespace, read an optional sign,
then the longest run of decimal digits; `none` models NaN. -/
def parseInt10 (s : String) : Option Int :=
  match s.data.dropWhile (fun c => c == ' ' || c == '\t' || c == '\n' || c == '\r') with
  | '-' :: rest => (digitsVal rest).map (fun v => -(v : Int))
  | '+' :: rest => (digitsVal rest).map (fun v => (v : Int))
  | rest => (digitsVal rest).map (fun v => (v : Int))

/-- Truncation toward zero, as the JS `%` operator applies to its operands'
quotient. -/
def truncQ (q : ℚ) : ℤ := if 0 ≤ q then ⌊q⌋ else ⌈q⌉

/-- JS `x % m` on finite numbers with a positive modulus `m`:
`x - m * trunc(x / m)`; fractional dividends keep their fraction. -/
def jsModQ (x m : ℚ) : ℚ := x - m * ((truncQ (x / m) : ℤ) : ℚ)

/-- Lines 154-164 of `script.js`: the core of `setVal` once the guards have
passed, guarded by the magnitude check of line 149.  Wrap mode stores
`((v % 2^n) + 2^n) % 2^n`; clamp mode stores
`Math.max(0, Math.min(2^n - 1, Math.floor(v)))`. -/
def setValFin (n : Nat) (wrap : Bool) (val q : ℚ) : ℚ :=
  if 9007199254740991 < |q| then val
  else if wrap then jsModQ (jsModQ q (2 ^ n) + 2 ^ n) (2 ^ n)
  else max 0 (min ((2 : ℚ) ^ n - 1) ((⌊q⌋ : ℤ) : ℚ))

/-- Lines 135-175 of `script.js` (`setVal`): the `typeof` guard rejects
non-number non-string arguments, strings go through `parseInt(v, 10)`, the
`isNaN`/`isFinite` guard rejects NaN and the infinities, and the accepted
number reaches `setValFin`.  The result is the stored value after the call
(the prior `val` whenever the argument is rejected). -/
def setVal (n : Nat) (wrap : Bool) (val : ℚ) : JSArg → ℚ
  | JSArg.other => val
  | JSArg.num JSNum.nan => val
  | JSArg.num JSNum.posInf => val
  | JSArg.num JSNum.negInf => val
  | JSArg.num (JSNum.fin q) => setValFin n wrap val q
  | JSArg.str s =>
    match parseInt10 s with
    | none => val
    | some k => setValFin n wrap val (k : ℚ)

/-- Lines 293-300 of `script.js`: the `prev` click handler.  With wrap
checked it calls `setVal((val - 1 + max) % max)` for `max = 1 << n`,
otherwise `setVal(val - 1)`. -/
def prevClick (n : Nat) (wrap : Bool) (val : ℚ) : ℚ :=
  if wrap then setVal n wrap val (JSArg.num (JSNum.fin (jsModQ (val - 1 + 2 ^ n) (2 ^ n))))
  else setVal n wrap val (JSArg.num (JSNum.fin (val - 1)))

/-- Line 397 of `script.js` (`drawDisc`): `rOuter = Math.min(W, H) / 2 - 20`. -/
def rOuter (W H : ℚ) : ℚ := min W H / 2 - 20

/-- Line 399 of `script.js` (`drawDisc`):
`ringWidth = (rOuter - 20 - (bits - 1) * ringGap) / bits` with `ringGap = 4`.
No lower bound is applied to the result anywhere in `drawDisc`. -/
def ringWidth (W H : ℚ) (bits : ℚ) : ℚ :=
  (rOuter W H - 20 - (bits - 1) * 4) / bits

/-- Line 482 of `script.js` (`renderDiscAll`): the bit count handed to the
disc geometry, `Math.max(1, Math.min(12, $('discBits').value | 0))`. -/
def discBitsClamp (x : Int) : Int := max 1 (min 12 x)

/-- Modelled from the spec: the RBC tab's recursive reflected construction
(the RBC code of the repository is not under `src/`; spec §4.2 defines
`RBC(0) = [""]` and `RBC(k)` as the elements of `RBC(k-1)` with a leading
'0' followed by the elements of the reversed `RBC(k-1)` with a leading '1'). -/
def RBC : Nat → List String
  | 0 => [""]
  | k + 1 => (RBC k).map (fun t => "0" ++ t) ++ (RBC k).reverse.map (fun t => "1" ++ t)

/-- Bounded boolean quantifier `∀ v < k, p v`, evaluated in chunks of 64 so
that the finite-range claims can be settled by kernel computation without
deep recursion. -/
def allBelow (k : Nat) (p : Nat → Bool) : Bool :=
  ((List.range (k / 64)).all (fun i => (List.range 64).all (fun j => p (64 * i + j)))) &&
  ((List.range (k % 64)).all (fun j => p (64 * (k / 64) + j)))

theorem allBelow_iff {k : Nat} {p : Nat → Bool} :
    allBelow k p = true ↔ ∀ v, v < k → p v = true := by
  unfold allBelow
  simp only [Bool.and_eq_true, List.all_eq_true, List.mem_range]
  constructor
  · rintro ⟨h1, h2⟩ v hv
    rcases lt_or_le (v / 64) (k / 64) with hc | hc
    · have := h1 (v / 64) hc (v % 64) (Nat.mod_lt _ (by norm_num))
      rwa [Nat.div_add_mod] at this
    · have hdiv : v / 64 = k / 64 := le_antisymm (Nat.div_le_div_right hv.le) hc
      have hmod : v % 64 < k % 64 := by omega
      have := h2 (v % 64) hmod
      rwa [hdiv.symm, Nat.div_add_mod] at this
  · intro h
    refine ⟨fun i hi j hj => h _ (by omega), fun j hj => h _ (by omega)⟩

theorem patOfInt_natCast {g : Nat} (h : g < 2 ^ 32) : patOfInt (g : Int) = g := by
  unfold patOfInt
  rw [Int.emod_eq_of_lt (by positivity) (by exact_mod_cast h)]
  exact Int.toNat_ofNat g

theorem int32OfPat_small {p : Nat} (h : p < 2 ^ 31) : int32OfPat p = (p : Int) :=
  if_pos h

theorem jsXorI_natCast {a b : Nat} (ha : a < 2 ^ 31) (hb : b < 2 ^ 31) :
    jsXorI (a : Int) (b : Int) = ((a ^^^ b : Nat) : Int) := by
  unfold jsXorI
  rw [patOfInt_natCast (lt_trans ha (by norm_num)),
    patOfInt_natCast (lt_trans hb (by norm_num))]
  exact int32OfPat_small (Nat.xor_lt_two_pow ha hb)

theorem jsShr1_natCast {g : Nat} (h : g < 2 ^ 31) :
    jsShr1 (g : Int) = ((g / 2 : Nat) : Int) := by
  unfold jsShr1
  rw [patOfInt_natCast (lt_trans h (by norm_num)), int32OfPat_small h]
  exact (Int.ofNat_fdiv g 2).symm

theorem binToGray_natCast {b : Nat} (h : b < 2 ^ 31) :
    binToGray b = ((b ^^^ b / 2 : Nat) : Int) := by
  unfold binToGray toUint32
  rw [Nat.mod_eq_of_lt (lt_trans h (by norm_num))]
  exact int32OfPat_small
    (Nat.xor_lt_two_pow h (lt_of_le_of_lt (Nat.div_le_self b 2) h))

theorem grayToBinLoop_natCast :
    ∀ (f g b : Nat), g < 2 ^ 31 → b < 2 ^ 31 →
      grayToBinLoop f (g : Int) (b : Int) = (grayGoNF f g b).map (fun m => (m : Int)) := by
  intro f
  induction f with
  | zero => intro g b _ _; rfl
  | succ f ih =>
    intro g b hg hb
    by_cases h : g = 0
    · subst h; simp [grayToBinLoop, grayGoNF]
    · have hI : (g : Int) ≠ 0 := by exact_mod_cast h
      rw [show grayToBinLoop (f + 1) (g : Int) (b : Int)
            = grayToBinLoop f (jsShr1 g) (jsXorI (b : Int) (g : Int)) from by
          simp [grayToBinLoop, hI],
        show grayGoNF (f + 1) g b = grayGoNF f (g / 2) (b ^^^ g) from by
          simp [grayGoNF, h],
        jsShr1_natCast hg, jsXorI_natCast hb hg]
      exact ih (g / 2) (b ^^^ g) (lt_of_le_of_lt (Nat.div_le_self g 2) hg)
        (Nat.xor_lt_two_pow hb hg)

theorem grayGoNF_total :
    ∀ (f f' g b : Nat), g < 2 ^ f → f < f' → ∃ m, grayGoNF f' g b = some m := by
  intro f
  induction f with
  | zero =>
    intro f' g b hg hf
    interval_cases g
    obtain ⟨f'', rfl⟩ := Nat.exists_eq_add_of_lt hf
    exact ⟨b, by simp [grayGoNF]⟩
  | succ f ih =>
    intro f' g b hg hf
    obtain ⟨f'', rfl⟩ : ∃ k, f' = k + 1 := ⟨f' - 1, by omega⟩
    by_cases h : g = 0
    · exact ⟨b, by simp [grayGoNF, h]⟩
    · have : grayGoNF (f'' + 1) g b = grayGoNF f'' (g / 2) (b ^^^ g) := by
        simp [grayGoNF, h]
      rw [this]
      exact ih f'' (g / 2) (b ^^^ g) (by omega) (by omega)

theorem grayGoNF_lt :
    ∀ (f : Nat) {k g b m : Nat}, g < 2 ^ k → b < 2 ^ k →
      grayGoNF f g b = some m → m < 2 ^ k := by
  intro f
  induction f with
  | zero => intro k g b m _ _ h; simp [grayGoNF] at h
  | succ f ih =>
    intro k g b m hg hb h
    by_cases h0 : g = 0
    · subst h0
      simp [grayGoNF] at h
      omega
    · rw [show grayGoNF (f + 1) g b = grayGoNF f (g / 2) (b ^^^ g) by
        simp [grayGoNF, h0]] at h
      exact ih (lt_of_le_of_lt (Nat.div_le_self g 2) hg) (Nat.xor_lt_two_pow hb hg) h

set_option maxRecDepth 8000 in
theorem grayRoundTripTable :
    allBelow 4096 (fun v => grayGoNF 64 (v ^^^ v / 2) 0 == some v) = true := by rfl

/-- Claim C1: for every bit width n in [1,12] and every value v in
[0, 2^n − 1], `grayToBin(binToGray(v))` terminates and returns v: the
iterative XOR-accumulation inverse exactly undoes the closed-form
`G = B XOR (B >> 1)` transform. -/
theorem grayToBin_binToGray_roundtrip (n v : Nat)
    (hn1 : 1 ≤ n) (hn2 : n ≤ 12) (hv : v < 2 ^ n) :
    grayToBin (binToGray v) = some (v : Int) := by
  have h12 : (2 : Nat) ^ n ≤ 2 ^ 12 := Nat.pow_le_pow_right (by norm_num) hn2
  have hv' : v < 4096 := lt_of_lt_of_le hv (by norm_num at h12 ⊢; exact h12)
  have h31 : v < 2 ^ 31 := lt_of_lt_of_le hv' (by norm_num)
  have hg : v ^^^ v / 2 < 2 ^ 31 :=
    Nat.xor_lt_two_pow h31 (lt_of_le_of_lt (Nat.div_le_self v 2) h31)
  rw [binToGray_natCast h31]
  unfold grayToBin
  have hcast := grayToBinLoop_natCast 64 (v ^^^ v / 2) 0 hg (by norm_num)
  rw [Nat.cast_zero] at hcast
  rw [hcast]
  have key := allBelow_iff.mp grayRoundTripTable v hv'
  rw [beq_iff_eq] at key
  rw [key]
  rfl

theorem grayToBin_binToGray_roundtrip_witness :
    1 ≤ 4 ∧ 4 ≤ 12 ∧ 10 < 2 ^ 4 ∧ grayToBin (binToGray 10) = some (10 : Int) :=
  ⟨by norm_num, by norm_num, by norm_num,
    grayToBin_binToGray_roundtrip 4 10 (by norm_num) (by norm_num) (by norm_num)⟩

set_option maxRecDepth 8000 in
theorem grayAdjacentTable :
    allBelow 13 (fun n => (n == 0) || allBelow (2 ^ n) (fun v =>
      hdist (binToGray v) (binToGray ((v + 1) % 2 ^ n)) == 1)) = true := by rfl

/-- Claim C2: for every bit width n in [1,12] and every v in [0, 2^n − 1],
the Hamming distance between `binToGray(v)` and `binToGray((v+1) mod 2^n)`
equals 1 — consecutive Gray codes differ in exactly one bit, including the
wrap edge from 2^n − 1 back to 0. -/
theorem gray_adjacent_hamming_one (n v : Nat)
    (hn1 : 1 ≤ n) (hn2 : n ≤ 12) (hv : v < 2 ^ n) :
    hdist (binToGray v) (binToGray ((v + 1) % 2 ^ n)) = 1 := by
  have key := allBelow_iff.mp grayAdjacentTable n (by omega)
  rw [Bool.or_eq_true] at key
  rcases key with key | key
  · rw [beq_iff_eq] at key; omega
  · have := allBelow_iff.mp key v hv
    rwa [beq_iff_eq] at this

theorem gray_adjacent_hamming_one_witness :
    1 ≤ 3 ∧ 3 ≤ 12 ∧ 7 < 2 ^ 3 ∧
      hdist (binToGray 7) (binToGray ((7 + 1) % 2 ^ 3)) = 1 :=
  ⟨by norm_num, by norm_num, by norm_num,
    gray_adjacent_hamming_one 3 7 (by norm_num) (by norm_num) (by norm_num)⟩

/-- Claim C5 (spec-modelled RBC): for every k in [1,6] the recursive
reflected construction yields exactly the list
`[pad(binToGray(i), k) for i = 0 .. 2^k − 1]`, same strings in the same
order. -/
theorem RBC_eq_binToGray_table (k : Nat) (h1 : 1 ≤ k) (h2 : k ≤ 6) :
    RBC k = (List.range (2 ^ k)).map (fun i => pad (binToGray i) k) := by
  interval_cases k <;> rfl

theorem RBC_eq_binToGray_table_witness :
    1 ≤ 2 ∧ 2 ≤ 6 ∧ RBC 2 = (List.range (2 ^ 2)).map (fun i => pad (binToGray i) 2) :=
  ⟨by norm_num, by norm_num, RBC_eq_binToGray_table 2 (by norm_num) (by norm_num)⟩

theorem binDigitsF_mem :
    ∀ (f m : Nat) (c : Char), c ∈ binDigitsF f m → c = '0' ∨ c = '1' := by
  intro f
  induction f with
  | zero => intro m c h; simp [binDigitsF] at h
  | succ f ih =>
    intro m c h
    by_cases h0 : m = 0
    · simp [binDigitsF, h0] at h
    · rw [show binDigitsF (f + 1) m
          = binDigitsF f (m / 2) ++ [if m % 2 = 1 then '1' else '0'] from by
        simp [binDigitsF, h0]] at h
      rcases List.mem_append.mp h with h | h
      · exact ih (m / 2) c h
      · simp at h
        subst h
        by_cases hp : m % 2 = 1 <;> simp [hp]

theorem pad_mem {x : Int} {len : Nat} {c : Char} (h : c ∈ (pad x len).data) :
    c = '0' ∨ c = '1' ∨ c = '-' := by
  have hnat : ∀ (m : Nat) (d : Char), d ∈ (natToString2 m).data → d = '0' ∨ d = '1' := by
    intro m d hd
    unfold natToString2 at hd
    by_cases h0 : m = 0
    · rw [if_pos h0] at hd
      simp only [show ("0" : String).data = ['0'] from rfl, List.mem_singleton] at hd
      exact Or.inl hd
    · rw [if_neg h0] at hd
      exact binDigitsF_mem 64 m d hd
  have hjs : ∀ (d : Char), d ∈ (jsToString2 x).data → d = '0' ∨ d = '1' ∨ d = '-' := by
    intro d hd
    unfold jsToString2 at hd
    by_cases hx : x < 0
    · rw [if_pos hx, String.data_append] at hd
      rcases List.mem_append.mp hd with hd | hd
      · simp only [show ("-" : String).data = ['-'] from rfl, List.mem_singleton] at hd
        exact Or.inr (Or.inr hd)
      · rcases hnat _ d hd with h' | h'
        · exact Or.inl h'
        · exact Or.inr (Or.inl h')
    · rw [if_neg hx] at hd
      rcases hnat _ d hd with h' | h'
      · exact Or.inl h'
      · exact Or.inr (Or.inl h')
  unfold pad padStart at h
  by_cases hle : len ≤ (jsToString2 x).length
  · rw [if_pos hle] at h
    exact hjs c h
  · rw [if_neg hle] at h
    simp only [String.data_append] at h
    rcases List.mem_append.mp h with h | h
    · exact Or.inl (List.eq_of_mem_replicate h)
    · exact hjs c h

theorem pad_ne_dash (x : Int) (len : Nat) : pad x len ≠ "—" := by
  intro h
  have : '—' ∈ (pad x len).data := by
    rw [h]
    simp [show ("—" : String).data = ['—'] from rfl]
  rcases pad_mem this with h' | h' | h' <;> exact absurd h' (by decide)

/-- Claim C3 counterexample: the input "10a1" contains a character other
than '0' and '1', yet `convert` does not answer the sentinel — it strips the
letter and converts the remaining digits "101" to "111". -/
theorem convert_nonbinary_cex :
    convert "10a1" true = some "111" ∧ some "111" ≠ some "—" :=
  ⟨rfl, by decide⟩

/-- Claim C3 as amended: `convert(input, toGray)` answers the sentinel "—"
exactly when the '0'/'1' subsequence of the input is empty or longer than 32
characters; inputs with other characters are stripped, not rejected, and the
non-string case is outside the string-typed model. -/
theorem convert_sentinel_iff (input : String) (g : Bool) :
    convert input g = some "—" ↔
      (strip01 input = "" ∨ 32 < (strip01 input).length) := by
  unfold convert
  by_cases h1 : strip01 input = ""
  · simp [h1]
  · rw [if_neg h1]
    by_cases h2 : 32 < (strip01 input).length
    · simp [h2]
    · rw [if_neg h2]
      simp only [h1, h2, or_self, iff_false]
      cases g
      · intro h
        simp only [Bool.false_eq_true, if_false, Option.map_eq_some'] at h
        obtain ⟨r, _, hr⟩ := h
        exact pad_ne_dash r _ hr
      · intro h
        simp only [if_true, Option.some_inj] at h
        exact pad_ne_dash _ _ h

theorem parseBin_foldl_lt :
    ∀ (l : List Char) (a : Nat),
      List.foldl (fun a c => 2 * a + (if c = '1' then 1 else 0)) a l
        < (a + 1) * 2 ^ l.length := by
  intro l
  induction l with
  | nil => intro a; simp
  | cons c l ih =>
    intro a
    have step := ih (2 * a + (if c = '1' then 1 else 0))
    have hd : (if c = '1' then 1 else 0) ≤ 1 := by split <;> norm_num
    calc List.foldl _ _ (c :: l)
        = List.foldl (fun a c => 2 * a + (if c = '1' then 1 else 0))
            (2 * a + (if c = '1' then 1 else 0)) l := rfl
      _ < (2 * a + (if c = '1' then 1 else 0) + 1) * 2 ^ l.length := step
      _ ≤ (a + 1) * 2 ^ (c :: l).length := by
          simp only [List.length_cons, pow_succ]
          nlinarith [Nat.pos_pow_of_pos l.length (show 0 < 2 by norm_num)]

theorem parseBin_lt (s : String) : parseBin s < 2 ^ s.length := by
  have h := parseBin_foldl_lt s.data 0
  simp only [zero_add, one_mul] at h
  exact h

theorem binDigitsF_length :
    ∀ (f : Nat) {m k : Nat}, m < 2 ^ f → m < 2 ^ k → (binDigitsF f m).length ≤ k := by
  intro f
  induction f with
  | zero =>
    intro m k hf _
    interval_cases m
    simp [binDigitsF]
  | succ f ih =>
    intro m k hf hk
    by_cases h0 : m = 0
    · simp [binDigitsF, h0]
    · have hk0 : k ≠ 0 := by
        intro h
        rw [h] at hk
        omega
      obtain ⟨k', rfl⟩ : ∃ k', k = k' + 1 := ⟨k - 1, by omega⟩
      rw [show binDigitsF (f + 1) m
          = binDigitsF f (m / 2) ++ [if m % 2 = 1 then '1' else '0'] from by
        simp [binDigitsF, h0]]
      have hf' : m / 2 < 2 ^ f := by
        rw [Nat.div_lt_iff_lt_mul (by norm_num)]
        rw [pow_succ] at hf
        exact hf
      have hk' : m / 2 < 2 ^ k' := by
        rw [Nat.div_lt_iff_lt_mul (by norm_num)]
        rw [pow_succ] at hk
        exact hk
      have := ih hf' hk'
      simp only [List.length_append, List.length_cons, List.length_nil]
      omega

theorem natToString2_length {m k : Nat} (h1 : m < 2 ^ k) (h2 : k ≤ 64) (h3 : 1 ≤ k) :
    (natToString2 m).length ≤ k := by
  unfold natToString2
  by_cases h0 : m = 0
  · simpa [h0] using h3
  · rw [if_neg h0, String.length_mk]
    exact binDigitsF_length 64
      (lt_of_lt_of_le h1 (Nat.pow_le_pow_right (by norm_num) h2)) h1

theorem padStart_length (s : String) (n : Nat) (c : Char) :
    (padStart s n c).length = max s.length n := by
  unfold padStart
  by_cases h : n ≤ s.length
  · rw [if_pos h, max_eq_left h]
  · rw [if_neg h, String.length_mk, List.length_append, List.length_replicate,
      max_eq_right (le_of_not_le h)]
    have : s.data.length = s.length := rfl
    omega

theorem pad_length {m len : Nat} (h : m < 2 ^ len) (h1 : 1 ≤ len) (h2 : len ≤ 64) :
    (pad (m : Int) len).length = len := by
  unfold pad jsToString2
  rw [if_neg (not_lt.2 (Int.natCast_nonneg m)), Int.toNat_ofNat, padStart_length,
    max_eq_right (natToString2_length h h2 h1)]

theorem string_ne_empty_length {s : String} (h : s ≠ "") : 1 ≤ s.length := by
  rcases s with ⟨l⟩
  cases l with
  | nil => exact absurd rfl h
  | cons c l => simp [String.length]

/-- Claim C10 counterexample: on the 32-character input of all ones the
parsed value 2^32 − 1 overflows the signed 32-bit range inside `binToGray`,
so `convert` answers a 33-character string with a minus sign instead of the
32-character zero-padded Gray code. -/
theorem convert_overflow_cex :
    convert (String.mk (List.replicate 32 '1')) true
        = some "-10000000000000000000000000000000" ∧
      ("-10000000000000000000000000000000" : String).length ≠ 32 :=
  ⟨rfl, by decide⟩

theorem binToGray_neg_of_ge {b : Nat} (h1 : 2 ^ 31 ≤ b) (h2 : b < 2 ^ 32) :
    binToGray b < 0 := by
  unfold binToGray toUint32
  rw [Nat.mod_eq_of_lt h2]
  have hdiv : b / 2 < 2 ^ 31 := by
    rw [Nat.div_lt_iff_lt_mul (by norm_num)]
    calc b < 2 ^ 32 := h2
      _ = 2 ^ 31 * 2 := by norm_num
  have hx : 2 ^ 31 ≤ b ^^^ b / 2 := by
    have ht1 : b.testBit 31 = true := by
      rw [Nat.testBit_to_div_mod]
      have hb1 : b / 2 ^ 31 = 1 := by
        rw [show (2 : ℕ) ^ 31 = 2147483648 by norm_num] at h1 ⊢
        rw [show (2 : ℕ) ^ 32 = 4294967296 by norm_num] at h2
        omega
      rw [hb1]
      rfl
    have ht2 : (b / 2).testBit 31 = false := Nat.testBit_lt_two_pow hdiv
    have ht : (b ^^^ b / 2).testBit 31 = true := by
      rw [Nat.testBit_xor, ht1, ht2]
      rfl
    exact Nat.testBit_implies_ge ht
  have hlt : b ^^^ b / 2 < 2 ^ 32 :=
    Nat.xor_lt_two_pow h2 (lt_of_lt_of_le hdiv (by norm_num))
  unfold int32OfPat
  rw [if_neg (not_lt.2 hx)]
  have hcast : ((b ^^^ b / 2 : Nat) : Int) < 2 ^ 32 := by exact_mod_cast hlt
  omega

theorem pad_mem_dash_of_neg {x : Int} (hx : x < 0) (len : Nat) :
    '-' ∈ (pad x len).data := by
  have hjs : '-' ∈ (jsToString2 x).data := by
    unfold jsToString2
    rw [if_pos hx, String.data_append]
    exact List.mem_append.2 (Or.inl (by
      simp [show ("-" : String).data = ['-'] from rfl]))
  unfold pad padStart
  by_cases h : len ≤ (jsToString2 x).length
  · rw [if_pos h]
    exact hjs
  · rw [if_neg h]
    exact List.mem_append.2 (Or.inr hjs)

/-- Supporting fact for amended claim C10: on every stripped input of at
most 32 digits whose parsed value reaches the signed 32-bit range,
`binToGray` evaluates to a negative number, so the string `convert` returns
in Gray direction contains a minus sign — it is not a zero-padded Gray
code, whatever its length. -/
theorem convert_overflow_negative (input : String)
    (h1 : strip01 input ≠ "") (h2 : (strip01 input).length ≤ 32)
    (h3 : 2 ^ 31 ≤ parseBin (strip01 input)) :
    ∃ r : String, convert input true = some r ∧ '-' ∈ r.data := by
  have hlt : parseBin (strip01 input) < 2 ^ 32 :=
    lt_of_lt_of_le (parseBin_lt (strip01 input))
      (Nat.pow_le_pow_right (by norm_num) h2)
  refine ⟨pad (binToGray (parseBin (strip01 input))) (strip01 input).length, ?_, ?_⟩
  · unfold convert
    rw [if_neg h1, if_neg (by omega)]
    rfl
  · exact pad_mem_dash_of_neg (binToGray_neg_of_ge h3 hlt) _

/-- Claim C10 as amended: for every input whose '0'/'1' subsequence s is
nonempty, at most 32 characters, and parses below 2^31, `convert` silently
strips the other characters and returns the conversion of s (`binToGray`,
resp. the terminating `grayToBin` run, of s parsed in base 2), zero-padded
to exactly `s.length` characters.  For parsed values of 2^31 and above this
fails: `binToGray` evaluates to a negative signed 32-bit value, so the Gray
output contains a minus sign and is no longer the zero-padded Gray code
(the all-ones input even returns 33 characters, see the counterexample),
while `grayToBin` never returns. -/
theorem convert_strips_and_pads (input : String) (g : Bool)
    (h1 : strip01 input ≠ "") (h2 : (strip01 input).length ≤ 32)
    (h3 : parseBin (strip01 input) < 2 ^ 31) :
    ∃ m : Nat, m < 2 ^ (strip01 input).length ∧
      (g = true → (m : Int) = binToGray (parseBin (strip01 input))) ∧
      (g = false → grayToBin ((parseBin (strip01 input) : Nat) : Int) = some (m : Int)) ∧
      convert input g = some (pad (m : Int) (strip01 input).length) ∧
      (pad (m : Int) (strip01 input).length).length = (strip01 input).length := by
  have hlen1 : 1 ≤ (strip01 input).length := string_ne_empty_length h1
  have hnum : parseBin (strip01 input) < 2 ^ (strip01 input).length :=
    parseBin_lt (strip01 input)
  cases g
  · obtain ⟨m, hm⟩ := grayGoNF_total 31 64 (parseBin (strip01 input)) 0 h3 (by norm_num)
    refine ⟨m, grayGoNF_lt 64 hnum (by positivity) hm, by simp, fun _ => ?_, ?_, ?_⟩
    · unfold grayToBin
      have hcast := grayToBinLoop_natCast 64 (parseBin (strip01 input)) 0 h3 (by norm_num)
      rw [Nat.cast_zero] at hcast
      rw [hcast, hm]
      rfl
    · unfold convert
      rw [if_neg h1, if_neg (by omega)]
      simp only [Bool.false_eq_true, if_false]
      unfold grayToBin
      have hcast := grayToBinLoop_natCast 64 (parseBin (strip01 input)) 0 h3 (by norm_num)
      rw [Nat.cast_zero] at hcast
      rw [hcast, hm]
      rfl
    · exact pad_length (grayGoNF_lt 64 hnum (by positivity) hm) hlen1 (by omega)
  · refine ⟨parseBin (strip01 input) ^^^ parseBin (strip01 input) / 2,
      Nat.xor_lt_two_pow hnum
        (lt_of_le_of_lt (Nat.div_le_self _ 2) hnum),
      fun _ => (binToGray_natCast h3).symm, by simp, ?_, ?_⟩
    · unfold convert
      rw [if_neg h1, if_neg (by omega)]
      simp only [if_true]
      rw [binToGray_natCast h3]
    · exact pad_length
        (Nat.xor_lt_two_pow hnum (lt_of_le_of_lt (Nat.div_le_self _ 2) hnum))
        hlen1 (by omega)

theorem convert_strips_and_pads_witness :
    strip01 "1010" ≠ "" ∧ (strip01 "1010").length ≤ 32 ∧
      parseBin (strip01 "1010") < 2 ^ 31 ∧
      (∃ m : Nat, m < 2 ^ (strip01 "1010").length ∧
        (true = true → (m : Int) = binToGray (parseBin (strip01 "1010"))) ∧
        (true = false → grayToBin ((parseBin (strip01 "1010") : Nat) : Int) = some (m : Int)) ∧
        convert "1010" true = some (pad (m : Int) (strip01 "1010").length) ∧
        (pad (m : Int) (strip01 "1010").length).length = (strip01 "1010").length) :=
  ⟨by decide, by decide, by decide,
    convert_strips_and_pads "1010" true (by decide) (by decide) (by decide)⟩

theorem truncQ_of_nonneg {q : ℚ} (h : 0 ≤ q) : truncQ q = ⌊q⌋ := if_pos h

theorem truncQ_of_neg {q : ℚ} (h : q < 0) : truncQ q = ⌈q⌉ := if_neg (not_le.2 h)

theorem jsModQ_nonneg_bounds {x m : ℚ} (hm : 0 < m) (hx : 0 ≤ x) :
    0 ≤ jsModQ x m ∧ jsModQ x m < m := by
  have hq : 0 ≤ x / m := div_nonneg hx hm.le
  have hxm : m * (x / m) = x := by field_simp
  have key : jsModQ x m = m * Int.fract (x / m) := by
    unfold jsModQ
    rw [truncQ_of_nonneg hq, ← Int.self_sub_floor, mul_sub, hxm]
  constructor
  · rw [key]
    exact mul_nonneg hm.le (Int.fract_nonneg _)
  · rw [key]
    calc m * Int.fract (x / m) < m * 1 :=
          mul_lt_mul_of_pos_left (Int.fract_lt_one _) hm
      _ = m := mul_one m

theorem jsModQ_neg_bounds {x m : ℚ} (hm : 0 < m) (hx : x < 0) :
    -m < jsModQ x m ∧ jsModQ x m ≤ 0 := by
  have hq : x / m < 0 := div_neg_of_neg_of_pos hx hm
  have hxm : m * (x / m) = x := by field_simp
  have key : jsModQ x m = m * (x / m - ((⌈x / m⌉ : ℤ) : ℚ)) := by
    unfold jsModQ
    rw [truncQ_of_neg hq, mul_sub, hxm]
  have hub : x / m - ((⌈x / m⌉ : ℤ) : ℚ) ≤ 0 := sub_nonpos.2 (Int.le_ceil _)
  have hlb : -1 < x / m - ((⌈x / m⌉ : ℤ) : ℚ) := by
    have := Int.ceil_lt_add_one (x / m)
    linarith
  constructor
  · rw [key]; nlinarith
  · rw [key]; nlinarith

theorem jsModQ_wrap_bounds {x m : ℚ} (hm : 0 < m) :
    0 ≤ jsModQ (jsModQ x m + m) m ∧ jsModQ (jsModQ x m + m) m < m := by
  rcases le_or_lt 0 x with hx | hx
  · have h1 := jsModQ_nonneg_bounds hm hx
    exact jsModQ_nonneg_bounds hm (by linarith [h1.1])
  · have h1 := jsModQ_neg_bounds hm hx
    exact jsModQ_nonneg_bounds hm (by linarith [h1.1])

theorem jsModQ_intCast (a M : ℤ) :
    jsModQ (a : ℚ) (M : ℚ) = ((a - M * truncQ ((a : ℚ) / (M : ℚ)) : ℤ) : ℚ) := by
  unfold jsModQ
  push_cast
  ring

theorem jsModQ_natCast_emod (a : ℤ) (d : ℕ) (ha : 0 ≤ a) (hd : 0 < d) :
    jsModQ (a : ℚ) ((d : ℕ) : ℚ) = ((a % ((d : ℕ) : ℤ) : ℤ) : ℚ) := by
  unfold jsModQ
  have hq : 0 ≤ (a : ℚ) / ((d : ℕ) : ℚ) := by positivity
  rw [truncQ_of_nonneg hq, Rat.floor_intCast_div_natCast, Int.emod_def]
  push_cast
  ring

/-- Claim C4 counterexample: the angle −10 is never normalized, so
`sectorFromAngle(-10, 2)` returns −1 — not the sector 3 the normalizing
formula would give, and not a sector index in [0, 3] at all. -/
theorem sectorFromAngle_neg_cex :
    sectorFromAngle (-10) 2 = -1 ∧ ¬(0 ≤ sectorFromAngle (-10) 2) := by
  have h1 : sectorFromAngle (-10) 2 = -1 := by
    unfold sectorFromAngle
    rw [show (-10 : ℚ) / ((360 : ℚ) / ((2 ^ 2 : ℕ) : ℚ)) = -1 / 9 by norm_num]
    rw [show ⌊(-1 / 9 : ℚ)⌋ = -1 by
      rw [Int.floor_eq_iff]
      constructor <;> norm_num]
    decide
  exact ⟨h1, by rw [h1]; decide⟩

/-- Claim C4 as amended: for every non-negative angle (every angle the
program's state variables can hold stays in [0, 360)) and bits in [1, 12],
`sectorFromAngle(angle, bits)` equals `floor(angle / (360 / 2^bits)) mod 2^bits`,
lies in [0, 2^bits − 1], is periodic with period 360, and maps angle 0 to
sector 0; negative angles are not normalized (see the counterexample). -/
theorem sectorFromAngle_nonneg_spec (angle : ℚ) (bits : Nat)
    (h0 : 0 ≤ angle) (hb1 : 1 ≤ bits) (hb2 : bits ≤ 12) :
    sectorFromAngle angle bits
        = ⌊angle / ((360 : ℚ) / ((2 ^ bits : Nat) : ℚ))⌋ % ((2 ^ bits : Nat) : ℤ) ∧
      0 ≤ sectorFromAngle angle bits ∧
      sectorFromAngle angle bits < ((2 ^ bits : Nat) : ℤ) ∧
      sectorFromAngle (angle + 360) bits = sectorFromAngle angle bits ∧
      sectorFromAngle 0 bits = 0 := by
  have hMQ : (0 : ℚ) < ((2 ^ bits : Nat) : ℚ) := by positivity
  have hMZ : (0 : ℤ) < ((2 ^ bits : Nat) : ℤ) := by positivity
  have hstep : (0 : ℚ) < (360 : ℚ) / ((2 ^ bits : Nat) : ℚ) := by positivity
  have e : ∀ a : ℚ, 0 ≤ a → sectorFromAngle a bits
      = ⌊a / ((360 : ℚ) / ((2 ^ bits : Nat) : ℚ))⌋ % ((2 ^ bits : Nat) : ℤ) := by
    intro a ha
    unfold sectorFromAngle jsRemInt
    rw [if_neg (not_lt.2 (Int.floor_nonneg.2 (div_nonneg ha hstep.le)))]
  have hper : ⌊(angle + 360) / ((360 : ℚ) / ((2 ^ bits : Nat) : ℚ))⌋
      = ⌊angle / ((360 : ℚ) / ((2 ^ bits : Nat) : ℚ))⌋ + ((2 ^ bits : Nat) : ℤ) := by
    have h360 : (360 : ℚ) / ((360 : ℚ) / ((2 ^ bits : Nat) : ℚ)) = ((2 ^ bits : Nat) : ℚ) := by
      field_simp
    rw [add_div, h360, show (((2 ^ bits : Nat) : ℚ)) = (((2 ^ bits : Nat) : ℤ) : ℚ) by
      push_cast; ring]
    exact Int.floor_add_int _ _
  refine ⟨e angle h0, ?_, ?_, ?_, ?_⟩
  · rw [e angle h0]
    exact Int.emod_nonneg _ (ne_of_gt hMZ)
  · rw [e angle h0]
    exact Int.emod_lt_of_pos _ hMZ
  · rw [e angle h0, e (angle + 360) (by linarith), hper]
    have := @Int.add_mul_emod_self
      ⌊angle / ((360 : ℚ) / ((2 ^ bits : Nat) : ℚ))⌋ 1 ((2 ^ bits : Nat) : ℤ)
    rw [one_mul] at this
    rw [this]
  · rw [e 0 le_rfl, zero_div, Int.floor_zero, Int.zero_emod]

theorem sectorFromAngle_nonneg_spec_witness :
    (0 ≤ (45 : ℚ) ∧ 1 ≤ 2 ∧ 2 ≤ 12) ∧
      (sectorFromAngle 45 2
          = ⌊(45 : ℚ) / ((360 : ℚ) / ((2 ^ 2 : Nat) : ℚ))⌋ % ((2 ^ 2 : Nat) : ℤ) ∧
        0 ≤ sectorFromAngle 45 2 ∧
        sectorFromAngle 45 2 < ((2 ^ 2 : Nat) : ℤ) ∧
        sectorFromAngle (45 + 360) 2 = sectorFromAngle 45 2 ∧
        sectorFromAngle 0 2 = 0) :=
  ⟨⟨by norm_num, by norm_num, by norm_num⟩,
    sectorFromAngle_nonneg_spec 45 2 (by norm_num) (by norm_num) (by norm_num)⟩

/-- Claim C6 counterexample: `setVal(7.9)` with n = 3 and wrap mode passes
every guard, and the wrap expression keeps the fraction: the stored value
becomes 7.9 — neither an integer nor within [0, 2^3 − 1]. -/
theorem setVal_fractional_cex :
    setVal 3 true 0 (JSArg.num (JSNum.fin (79 / 10))) = 79 / 10 ∧
      ¬∃ i : ℤ, setVal 3 true 0 (JSArg.num (JSNum.fin (79 / 10))) = (i : ℚ) ∧
        0 ≤ i ∧ i ≤ 2 ^ 3 - 1 := by
  have e : setVal 3 true 0 (JSArg.num (JSNum.fin (79 / 10))) = 79 / 10 := by
    show setValFin 3 true 0 (79 / 10) = 79 / 10
    unfold setValFin
    rw [if_neg (by rw [abs_of_nonneg (by norm_num : (0:ℚ) ≤ 79 / 10)]; norm_num),
      if_pos rfl]
    have t1 : truncQ ((79 / 10 : ℚ) / (2 ^ 3)) = 0 := by
      rw [truncQ_of_nonneg (by norm_num)]
      rw [show (79 / 10 : ℚ) / (2 ^ 3) = 79 / 80 by norm_num]
      rw [Int.floor_eq_zero_iff, Set.mem_Ico]
      norm_num
    have s1 : jsModQ (79 / 10 : ℚ) (2 ^ 3) = 79 / 10 := by
      unfold jsModQ
      rw [t1]
      norm_num
    rw [s1]
    have t2 : truncQ ((79 / 10 + 2 ^ 3 : ℚ) / (2 ^ 3)) = 1 := by
      rw [truncQ_of_nonneg (by norm_num)]
      rw [show (79 / 10 + 2 ^ 3 : ℚ) / (2 ^ 3) = 159 / 80 by norm_num]
      rw [Int.floor_eq_iff]
      constructor <;> norm_num
    unfold jsModQ
    rw [t2]
    norm_num
  refine ⟨e, ?_⟩
  rintro ⟨i, hi, _, _⟩
  rw [e, div_eq_iff (by norm_num : (10 : ℚ) ≠ 0)] at hi
  have hz : (79 : ℤ) = i * 10 := by exact_mod_cast hi
  omega

/-- Claim C6 as amended: for every finite numeric argument accepted by
`setVal`, in wrap mode the stored value lies in [0, 2^n) and is an integer
whenever the argument is an integer (a fractional argument keeps its
fraction), and in clamp mode the stored value is always an integer in
[0, 2^n − 1]. -/
theorem setVal_range_spec (n : Nat) (val q : ℚ) (hn1 : 1 ≤ n) (hn2 : n ≤ 12)
    (hq : |q| ≤ 9007199254740991) :
    (0 ≤ setVal n true val (JSArg.num (JSNum.fin q)) ∧
      setVal n true val (JSArg.num (JSNum.fin q)) < 2 ^ n ∧
      (∀ j : ℤ, q = (j : ℚ) →
        ∃ i : ℤ, setVal n true val (JSArg.num (JSNum.fin q)) = (i : ℚ))) ∧
    (∃ i : ℤ, setVal n false val (JSArg.num (JSNum.fin q)) = (i : ℚ) ∧
      0 ≤ i ∧ (i : ℚ) ≤ 2 ^ n - 1) := by
  have hg : ¬(9007199254740991 < |q|) := not_lt.2 hq
  have hm : (0 : ℚ) < 2 ^ n := by positivity
  constructor
  · have e : setVal n true val (JSArg.num (JSNum.fin q))
        = jsModQ (jsModQ q (2 ^ n) + 2 ^ n) (2 ^ n) := by
      show setValFin n true val q = _
      unfold setValFin
      rw [if_neg hg, if_pos rfl]
    obtain ⟨b1, b2⟩ := jsModQ_wrap_bounds (x := q) hm
    refine ⟨by rw [e]; exact b1, by rw [e]; exact b2, ?_⟩
    rintro j rfl
    have h2n : ((2 : ℚ)) ^ n = (((2 ^ n : ℤ)) : ℚ) := by push_cast; ring
    have hsum : jsModQ ((j : ℤ) : ℚ) (((2 ^ n : ℤ)) : ℚ) + (((2 ^ n : ℤ)) : ℚ)
        = (((j - 2 ^ n * truncQ ((j : ℚ) / ((2 ^ n : ℤ) : ℚ)) + 2 ^ n : ℤ)) : ℚ) := by
      rw [jsModQ_intCast j (2 ^ n)]
      push_cast
      ring
    rw [e, h2n, hsum, jsModQ_intCast]
    exact ⟨_, rfl⟩
  · have e : setVal n false val (JSArg.num (JSNum.fin q))
        = max 0 (min ((2 : ℚ) ^ n - 1) ((⌊q⌋ : ℤ) : ℚ)) := by
      show setValFin n false val q = _
      unfold setValFin
      rw [if_neg hg]
      simp only [Bool.false_eq_true, if_false]
    have h2 : (2 : ℤ) ≤ 2 ^ n := by
      calc (2 : ℤ) = 2 ^ 1 := (pow_one 2).symm
        _ ≤ 2 ^ n := pow_le_pow_right (by norm_num) hn1
    refine ⟨max 0 (min ((2 ^ n : ℤ) - 1) ⌊q⌋), ?_, le_max_left _ _, ?_⟩
    · rw [e, Int.cast_max, Int.cast_min]
      push_cast
      ring_nf
    · have hle : max 0 (min ((2 ^ n : ℤ) - 1) ⌊q⌋) ≤ (2 ^ n : ℤ) - 1 :=
        max_le (by omega) (min_le_left _ _)
      calc ((max 0 (min ((2 ^ n : ℤ) - 1) ⌊q⌋) : ℤ) : ℚ)
          ≤ (((2 ^ n : ℤ) - 1 : ℤ) : ℚ) := by exact_mod_cast hle
        _ = 2 ^ n - 1 := by push_cast; ring

theorem setVal_range_spec_witness :
    (1 ≤ 3 ∧ 3 ≤ 12 ∧ |(3 : ℚ)| ≤ 9007199254740991) ∧
      ((0 ≤ setVal 3 true 0 (JSArg.num (JSNum.fin 3)) ∧
        setVal 3 true 0 (JSArg.num (JSNum.fin 3)) < 2 ^ 3 ∧
        (∀ j : ℤ, (3 : ℚ) = (j : ℚ) →
          ∃ i : ℤ, setVal 3 true 0 (JSArg.num (JSNum.fin 3)) = (i : ℚ))) ∧
      (∃ i : ℤ, setVal 3 false 0 (JSArg.num (JSNum.fin 3)) = (i : ℚ) ∧
        0 ≤ i ∧ (i : ℚ) ≤ 2 ^ 3 - 1)) :=
  ⟨⟨by norm_num, by norm_num, by rw [abs_of_nonneg (by norm_num : (0:ℚ) ≤ 3)]; norm_num⟩,
    setVal_range_spec 3 0 3 (by norm_num) (by norm_num)
      (by rw [abs_of_nonneg (by norm_num : (0:ℚ) ≤ 3)]; norm_num)⟩

/-- Claim C7: decrementing obeys the boundary policy — with wrap mode the
new value is ((v − 1) mod 2^n + 2^n) mod 2^n (so n = 3 takes 0 to 7), and
with wrap disabled it is max(0, min(2^n − 1, v − 1)) (so 0 stays at 0). -/
theorem prevClick_spec (n v : Nat) (hn1 : 1 ≤ n) (hn2 : n ≤ 12) (hv : v < 2 ^ n) :
    prevClick n true (v : ℚ)
        = (((((v : ℤ) - 1) % (2 ^ n : ℤ) + 2 ^ n) % (2 ^ n : ℤ) : ℤ) : ℚ) ∧
      prevClick n false (v : ℚ) = max 0 (min ((2 : ℚ) ^ n - 1) ((v : ℚ) - 1)) := by
  have hMZ : (0 : ℤ) < 2 ^ n := by positivity
  have hMn : ((2 ^ n : ℕ) : ℤ) = (2 ^ n : ℤ) := by push_cast; ring
  have hMQ : ((2 : ℚ)) ^ n = ((2 ^ n : ℕ) : ℚ) := by push_cast; ring
  have hpos : 0 < 2 ^ n := Nat.pos_pow_of_pos n (by norm_num)
  have hn4096 : (2 : ℤ) ^ n ≤ 4096 := by
    calc (2 : ℤ) ^ n ≤ 2 ^ 12 := pow_le_pow_right₀ (by norm_num) hn2
      _ = 4096 := by norm_num
  constructor
  · unfold prevClick
    rw [if_pos rfl]
    set a : ℤ := (v : ℤ) - 1 + 2 ^ n with ha
    have ha0 : 0 ≤ a := by
      have : (0 : ℤ) ≤ (v : ℤ) := Int.natCast_nonneg v
      omega
    have harg : ((v : ℚ) - 1 + 2 ^ n) = ((a : ℤ) : ℚ) := by
      rw [ha]; push_cast; ring
    have h1 : jsModQ ((v : ℚ) - 1 + 2 ^ n) ((2 : ℚ) ^ n)
        = ((a % (2 ^ n : ℤ) : ℤ) : ℚ) := by
      rw [harg, hMQ, jsModQ_natCast_emod a (2 ^ n) ha0 hpos, hMn]
    rw [h1]
    have hr0 : 0 ≤ a % (2 ^ n : ℤ) := Int.emod_nonneg a (ne_of_gt hMZ)
    have hrM : a % (2 ^ n : ℤ) < 2 ^ n := Int.emod_lt_of_pos a hMZ
    show setValFin n true (v : ℚ) ((a % (2 ^ n : ℤ) : ℤ) : ℚ) = _
    unfold setValFin
    rw [if_neg (by
      rw [abs_of_nonneg (by exact_mod_cast hr0)]
      have : ((a % (2 ^ n : ℤ) : ℤ) : ℚ) ≤ ((4096 : ℤ) : ℚ) := by
        exact_mod_cast le_of_lt (lt_of_lt_of_le hrM hn4096)
      push_cast at this ⊢
      linarith), if_pos rfl]
    have h2 : jsModQ ((a % (2 ^ n : ℤ) : ℤ) : ℚ) ((2 : ℚ) ^ n)
        = ((a % (2 ^ n : ℤ) : ℤ) : ℚ) := by
      rw [hMQ, jsModQ_natCast_emod _ (2 ^ n) hr0 hpos, hMn,
        Int.emod_eq_of_lt hr0 hrM]
    rw [h2]
    have h3 : ((a % (2 ^ n : ℤ) : ℤ) : ℚ) + (2 : ℚ) ^ n
        = ((a % (2 ^ n : ℤ) + 2 ^ n : ℤ) : ℚ) := by push_cast; ring
    rw [h3, hMQ, jsModQ_natCast_emod _ (2 ^ n) (by omega) hpos, hMn]
    have hkey : a % (2 ^ n : ℤ) = ((v : ℤ) - 1) % (2 ^ n : ℤ) := by
      have h := @Int.add_mul_emod_self ((v : ℤ) - 1) 1 ((2 : ℤ) ^ n)
      rw [one_mul] at h
      rw [ha]
      exact h
    rw [hkey]
  · unfold prevClick
    rw [if_neg (by simp)]
    show setValFin n false (v : ℚ) ((v : ℚ) - 1) = _
    unfold setValFin
    have hv4096 : (v : ℚ) ≤ 4096 := by
      have : (v : ℤ) < 2 ^ n := by exact_mod_cast hv
      have h2 : (v : ℤ) ≤ 4096 := by omega
      exact_mod_cast h2
    rw [if_neg (by
      rw [not_lt, abs_le]
      constructor <;> [linarith [Nat.cast_nonneg (α := ℚ) v]; linarith])]
    simp only [Bool.false_eq_true, if_false]
    rw [show ((v : ℚ) - 1) = (((v : ℤ) - 1 : ℤ) : ℚ) by push_cast; ring,
      Int.floor_intCast]

theorem prevClick_spec_witness :
    prevClick 3 true ((0 : ℕ) : ℚ) = 7 ∧ prevClick 3 false ((0 : ℕ) : ℚ) = 0 := by
  have h := prevClick_spec 3 0 (by norm_num) (by norm_num) (by norm_num)
  constructor
  · rw [h.1]; decide
  · rw [h.2]; norm_num

/-- Claim C8: an invalid `setVal` argument — a non-number non-string value,
NaN, an infinity, or a string whose parse is NaN — leaves the stored value
exactly as it was; the call performs no state change. -/
theorem setVal_invalid_no_change (n : Nat) (wrap : Bool) (val : ℚ) (arg : JSArg)
    (h : arg = JSArg.other ∨ arg = JSArg.num JSNum.nan ∨
      arg = JSArg.num JSNum.posInf ∨ arg = JSArg.num JSNum.negInf ∨
      ∃ s, arg = JSArg.str s ∧ parseInt10 s = none) :
    setVal n wrap val arg = val := by
  rcases h with h | h | h | h | ⟨s, h, hs⟩ <;> subst h
  · rfl
  · rfl
  · rfl
  · rfl
  · show (match parseInt10 s with
      | none => val
      | some k => setValFin n wrap val (k : ℚ)) = val
    rw [hs]

theorem setVal_invalid_no_change_witness :
    setVal 4 true 0 JSArg.other = 0 :=
  setVal_invalid_no_change 4 true 0 JSArg.other (Or.inl rfl)

/-- Claim C9 counterexample: on a 160 × 160 canvas with 12 bits the ring
width formula evaluates to −1/3 and that negative value is used as is — no
clamping to a minimum positive value takes place. -/
theorem ringWidth_negative_cex :
    ringWidth 160 160 12 = -1 / 3 ∧ ¬(0 < ringWidth 160 160 12) := by
  have h : ringWidth 160 160 12 = -1 / 3 := by
    unfold ringWidth rOuter
    norm_num
  exact ⟨h, by rw [h]; norm_num⟩

/-- Claim C9 as amended: the disc bit count is clamped into [1, 12] before
any geometry is computed, and the ring width actually used for drawing is
exactly (min(W, H)/2 − 40 − (bits − 1)·4)/bits, with no minimum applied: it
is positive precisely when 40 + (bits − 1)·4 < min(W, H)/2, and otherwise a
zero or negative ring width is used silently. -/
theorem ringWidth_formula_spec (W H : ℚ) (x : Int) :
    (1 ≤ discBitsClamp x ∧ discBitsClamp x ≤ 12) ∧
      ringWidth W H ((discBitsClamp x : ℤ) : ℚ)
        = (min W H / 2 - 40 - (((discBitsClamp x : ℤ) : ℚ) - 1) * 4)
            / ((discBitsClamp x : ℤ) : ℚ) ∧
      (0 < ringWidth W H ((discBitsClamp x : ℤ) : ℚ) ↔
        40 + (((discBitsClamp x : ℤ) : ℚ) - 1) * 4 < min W H / 2) := by
  have hb : 1 ≤ discBitsClamp x ∧ discBitsClamp x ≤ 12 := by
    unfold discBitsClamp
    omega
  have hbQ : (0 : ℚ) < ((discBitsClamp x : ℤ) : ℚ) := by
    have : (0 : ℤ) < discBitsClamp x := by omega
    exact_mod_cast this
  have he : ringWidth W H ((discBitsClamp x : ℤ) : ℚ)
      = (min W H / 2 - 40 - (((discBitsClamp x : ℤ) : ℚ) - 1) * 4)
          / ((discBitsClamp x : ℤ) : ℚ) := by
    unfold ringWidth rOuter
    ring_nf
  refine ⟨hb, he, ?_⟩
  rw [he]
  rw [div_pos_iff]
  constructor
  · rintro (⟨h1, _⟩ | ⟨_, h2⟩)
    · linarith
    · exact absurd hbQ (not_lt.2 h2.le)
  · intro h
    exact Or.inl ⟨by linarith, hbQ⟩

end GrayNinja
